import Mathlib

/-!
Verification of the `pd_predictive_modeling` experiment pipeline.

The repository is a pair of Jupyter notebooks that orchestrate calls into
external statistical libraries (scikit-learn, xgboost): train/test split
loading, classifier fitting, metric computation (accuracy, AUC-ROC,
confusion matrix, per-class report) and exhaustive grid search with
cross-validation.  The library routines the notebooks invoke are not part of
the repository's own sources, so each component is modelled here from the
specification's contracts: labels are binary naturals (0 = good credit,
1 = bad credit), scores and probabilities are rationals, and errors that the
libraries raise are modelled as `Option.none` results.
-/

namespace PD

/-! ## Evaluator: accuracy and confusion matrix -/

/-- Modelled from the spec: `accuracy_score` is absent from the sources
(scikit-learn library code); the spec defines accuracy as the fraction of
exact matches between true and predicted labels.  Count of positions where
the two label vectors agree. -/
def nMatches (y p : List Nat) : Nat :=
  (y.zip p).countP fun t => t.1 == t.2

/-- Modelled from the spec: accuracy = number of exact matches divided by the
total number of samples. -/
def accuracy (y p : List Nat) : Rat :=
  (nMatches y p : Rat) / (y.length : Rat)

/-- Modelled from the spec: `confusion_matrix` is absent from the sources
(scikit-learn library code); the spec defines a 2x2 matrix of counts where
rows are indexed by the true label and columns by the predicted label. -/
def confusionCount (y p : List Nat) (i j : Nat) : Nat :=
  (y.zip p).countP fun t => t.1 == i && t.2 == j

/-- True positives: samples with true label 1 predicted as 1. -/
def truePos (y p : List Nat) : Nat := confusionCount y p 1 1

/-- True negatives: samples with true label 0 predicted as 0. -/
def trueNeg (y p : List Nat) : Nat := confusionCount y p 0 0

/-- On binary pairs, the number of exact matches splits into true positives
plus true negatives. -/
theorem countP_matches_split (l : List (Nat × Nat))
    (hb : ∀ t ∈ l, (t.1 = 0 ∨ t.1 = 1) ∧ (t.2 = 0 ∨ t.2 = 1)) :
    l.countP (fun t => t.1 == t.2) =
      l.countP (fun t => t.1 == 1 && t.2 == 1) +
      l.countP (fun t => t.1 == 0 && t.2 == 0) := by
  induction l with
  | nil => simp
  | cons a l ih =>
    have ha := hb a (List.mem_cons_self a l)
    have hl : ∀ t ∈ l, (t.1 = 0 ∨ t.1 = 1) ∧ (t.2 = 0 ∨ t.2 = 1) :=
      fun t ht => hb t (List.mem_cons_of_mem a ht)
    rcases ha with ⟨h1 | h1, h2 | h2⟩ <;>
      simp [List.countP_cons, h1, h2, ih hl] <;> omega

/-- Counting the pairs of a zip whose first component satisfies a predicate
is counting in the first list, when the second list is long enough. -/
theorem countP_zip_fst (q : Nat → Bool) :
    ∀ (y : List Nat) (p : List Nat), y.length ≤ p.length →
      (y.zip p).countP (fun t => q t.1) = y.countP q := by
  intro y
  induction y with
  | nil => intro p _; simp
  | cons a y ih =>
    intro p hp
    cases p with
    | nil => simp at hp
    | cons b p =>
      simp only [List.zip_cons_cons, List.countP_cons]
      rw [ih p (by simpa using hp)]

/-- An element of the first list of a zip appears as the first component of
some pair of the zip, when the second list is long enough. -/
theorem exists_zip_pair {α : Type} :
    ∀ (y : List Nat) (s : List α) (a : Nat), a ∈ y → y.length ≤ s.length →
      ∃ r, (a, r) ∈ y.zip s := by
  intro y
  induction y with
  | nil => intro s a ha; simp at ha
  | cons b y ih =>
    intro s a ha hlen
    cases s with
    | nil => simp at hlen
    | cons r s =>
      rcases List.mem_cons.mp ha with h | h
      · exact ⟨r, by simp [h]⟩
      · obtain ⟨r2, hr2⟩ := ih s a h (by simpa using hlen)
        exact ⟨r2, List.mem_cons_of_mem _ hr2⟩

/-- C1: for every test set with both classes present and every prediction
vector of equal length (labels binary), the Evaluator's accuracy equals
(true positives + true negatives) divided by the total number of samples,
and this value lies in [0,1]. -/
theorem accuracy_tp_tn_ratio_in_unit (y p : List Nat)
    (hlen : y.length = p.length)
    (hy : ∀ a ∈ y, a = 0 ∨ a = 1) (hp : ∀ a ∈ p, a = 0 ∨ a = 1)
    (h1 : 1 ∈ y) (h0 : 0 ∈ y) :
    accuracy y p = ((truePos y p + trueNeg y p : Nat) : Rat) / (y.length : Rat) ∧
      0 ≤ accuracy y p ∧ accuracy y p ≤ 1 := by
  have hb : ∀ t ∈ y.zip p, (t.1 = 0 ∨ t.1 = 1) ∧ (t.2 = 0 ∨ t.2 = 1) := by
    intro t ht
    obtain ⟨hty, htp⟩ := List.of_mem_zip ht
    exact ⟨hy _ hty, hp _ htp⟩
  have hsplit : nMatches y p = truePos y p + trueNeg y p :=
    countP_matches_split (y.zip p) hb
  have hzlen : (y.zip p).length = y.length := by
    rw [List.length_zip, hlen, Nat.min_self]
  have hpos : 0 < y.length := List.length_pos.mpr (List.ne_nil_of_mem h1)
  have hposQ : (0 : Rat) < (y.length : Rat) := by exact_mod_cast hpos
  refine ⟨by rw [accuracy, hsplit], ?_, ?_⟩
  · exact div_nonneg (by positivity) (le_of_lt hposQ)
  · rw [accuracy, div_le_one hposQ]
    have hle : nMatches y p ≤ y.length := by
      rw [← hzlen]; exact List.countP_le_length _
    exact_mod_cast hle

/-- C1 witness: the accuracy theorem at a concrete split. -/
theorem accuracy_tp_tn_ratio_in_unit_witness :
    accuracy [0, 1] [0, 0] =
      ((truePos [0, 1] [0, 0] + trueNeg [0, 1] [0, 0] : Nat) : Rat) /
        (([0, 1] : List Nat).length : Rat) ∧
      0 ≤ accuracy [0, 1] [0, 0] ∧ accuracy [0, 1] [0, 0] ≤ 1 :=
  accuracy_tp_tn_ratio_in_unit [0, 1] [0, 0] (by decide) (by decide) (by decide)
    (by decide) (by decide)

/-- On pairs whose second component is binary, counting all pairs with a given
first component splits by the value of the second component. -/
theorem countP_row_split (i : Nat) (l : List (Nat × Nat))
    (hb : ∀ t ∈ l, t.2 = 0 ∨ t.2 = 1) :
    l.countP (fun t => t.1 == i && t.2 == 0) +
      l.countP (fun t => t.1 == i && t.2 == 1) =
      l.countP (fun t => t.1 == i) := by
  induction l with
  | nil => simp
  | cons a l ih =>
    have ha := hb a (List.mem_cons_self a l)
    have hl : ∀ t ∈ l, t.2 = 0 ∨ t.2 = 1 :=
      fun t ht => hb t (List.mem_cons_of_mem a ht)
    rcases ha with h2 | h2 <;>
      by_cases hi : a.1 = i <;>
      simp [List.countP_cons, h2, hi, ← ih hl] <;> omega

/-- C8: each row sum of the 2x2 confusion matrix equals the number of samples
whose true label is that row's class, for binary label vectors of equal
length; the analogous constraint on column sums does not hold in general. -/
theorem confusion_row_sums (y p : List Nat)
    (hlen : y.length = p.length)
    (hy : ∀ a ∈ y, a = 0 ∨ a = 1) (hp : ∀ a ∈ p, a = 0 ∨ a = 1) :
    (confusionCount y p 0 0 + confusionCount y p 0 1 = y.countP (· == 0) ∧
      confusionCount y p 1 0 + confusionCount y p 1 1 = y.countP (· == 1)) ∧
    ¬ (∀ y2 p2 : List Nat, y2.length = p2.length →
        (∀ a ∈ y2, a = 0 ∨ a = 1) → (∀ a ∈ p2, a = 0 ∨ a = 1) →
        confusionCount y2 p2 0 0 + confusionCount y2 p2 1 0 =
          y2.countP (· == 0)) := by
  have hb : ∀ t ∈ y.zip p, t.2 = 0 ∨ t.2 = 1 :=
    fun t ht => hp _ (List.of_mem_zip ht).2
  have hle : y.length ≤ p.length := le_of_eq hlen
  constructor
  · constructor
    · rw [confusionCount, confusionCount, countP_row_split 0 (y.zip p) hb]
      exact countP_zip_fst (· == 0) y p hle
    · rw [confusionCount, confusionCount, countP_row_split 1 (y.zip p) hb]
      exact countP_zip_fst (· == 1) y p hle
  · intro hcol
    have := hcol [0] [1] (by decide) (by decide) (by decide)
    simp [confusionCount] at this

/-- C8 witness: the confusion-matrix row-sum theorem at a concrete input. -/
theorem confusion_row_sums_witness :
    (confusionCount [0, 1, 1] [1, 1, 0] 0 0 + confusionCount [0, 1, 1] [1, 1, 0] 0 1 =
        ([0, 1, 1] : List Nat).countP (· == 0) ∧
      confusionCount [0, 1, 1] [1, 1, 0] 1 0 + confusionCount [0, 1, 1] [1, 1, 0] 1 1 =
        ([0, 1, 1] : List Nat).countP (· == 1)) ∧
    ¬ (∀ y2 p2 : List Nat, y2.length = p2.length →
        (∀ a ∈ y2, a = 0 ∨ a = 1) → (∀ a ∈ p2, a = 0 ∨ a = 1) →
        confusionCount y2 p2 0 0 + confusionCount y2 p2 1 0 =
          y2.countP (· == 0)) :=
  confusion_row_sums [0, 1, 1] [1, 1, 0] (by decide) (by decide) (by decide)

/-! ## Evaluator: AUC-ROC -/

/-- Scores of the samples whose true label is 1 (the positive class). -/
def posScores (y : List Nat) (s : List Rat) : List Rat :=
  ((y.zip s).filter fun t => t.1 == 1).map Prod.snd

/-- Scores of the samples whose true label is 0 (the negative class). -/
def negScores (y : List Nat) (s : List Rat) : List Rat :=
  ((y.zip s).filter fun t => t.1 == 0).map Prod.snd

/-- Contribution of one positive/negative score pair to the rank statistic:
1 when the positive is ranked above the negative, 1/2 on a tie, 0 otherwise. -/
def pairScore (a b : Rat) : Rat :=
  if b < a then 1 else if a = b then 1 / 2 else 0

/-- Sum of the pair contributions over all positive/negative pairs. -/
def aucNum (ps ns : List Rat) : Rat :=
  (ps.map fun a => (ns.map fun b => pairScore a b).sum).sum

/-- Modelled from the spec: `roc_auc_score` is absent from the sources
(scikit-learn library code); the spec defines AUC-ROC as the probability
that a randomly chosen positive case is ranked above a randomly chosen
negative case by predicted score, and requires the single-class case to be
reported as an error (modelled as `none`) rather than a degenerate value. -/
def aucROC (y : List Nat) (s : List Rat) : Option Rat :=
  let ps := posScores y s
  let ns := negScores y s
  if ps.isEmpty || ns.isEmpty then none
  else some (aucNum ps ns / ((ps.length : Rat) * (ns.length : Rat)))

/-- A label present in `y` contributes at least one score to the class score
list extracted for that label. -/
theorem classScores_ne_nil (y : List Nat) (s : List Rat) (a : Nat)
    (ha : a ∈ y) (hlen : y.length ≤ s.length) :
    ((y.zip s).filter fun t => t.1 == a).map Prod.snd ≠ [] := by
  obtain ⟨r, hr⟩ := exists_zip_pair y s a ha hlen
  have : (a, r) ∈ (y.zip s).filter fun t => t.1 == a :=
    List.mem_filter.mpr ⟨hr, by simp⟩
  intro hnil
  rw [List.map_eq_nil_iff] at hnil
  rw [hnil] at this
  simp at this

/-- C2: with equal-length label and score vectors, a single-class label
vector makes AUC-ROC report an error (`none`), while a label vector
containing both classes yields a numeric value. -/
theorem auc_single_class_error (y : List Nat) (s : List Rat)
    (hlen : y.length = s.length) :
    ((∀ a ∈ y, a = 1) ∨ (∀ a ∈ y, a = 0) → aucROC y s = none) ∧
      (1 ∈ y → 0 ∈ y → (aucROC y s).isSome = true) := by
  constructor
  · intro hone
    rcases hone with h | h
    · have hns : negScores y s = [] := by
        rw [negScores, List.map_eq_nil_iff, List.filter_eq_nil_iff]
        intro t ht
        have := h _ (List.of_mem_zip ht).1
        simp [this]
      rw [aucROC]
      simp [hns]
    · have hps : posScores y s = [] := by
        rw [posScores, List.map_eq_nil_iff, List.filter_eq_nil_iff]
        intro t ht
        have := h _ (List.of_mem_zip ht).1
        simp [this]
      rw [aucROC]
      simp [hps]
  · intro h1 h0
    have hps : posScores y s ≠ [] :=
      classScores_ne_nil y s 1 h1 (le_of_eq hlen)
    have hns : negScores y s ≠ [] :=
      classScores_ne_nil y s 0 h0 (le_of_eq hlen)
    rw [aucROC]
    simp [List.isEmpty_iff, hps, hns]

/-- C2 witness: the AUC error theorem at concrete single-class and two-class
label vectors. -/
theorem auc_single_class_error_witness :
    ((∀ a ∈ ([1, 1] : List Nat), a = 1) ∨ (∀ a ∈ ([1, 1] : List Nat), a = 0) →
        aucROC [1, 1] [1/2, 1/3] = none) ∧
      (1 ∈ ([1, 1] : List Nat) → 0 ∈ ([1, 1] : List Nat) →
        (aucROC [1, 1] [1/2, 1/3]).isSome = true) :=
  auc_single_class_error [1, 1] [1/2, 1/3] (by decide)

/-- Every extracted class score is one of the input scores. -/
theorem classScores_subset (y : List Nat) (s : List Rat) (a : Nat) :
    ∀ r ∈ ((y.zip s).filter fun t => t.1 == a).map Prod.snd, r ∈ s := by
  intro r hr
  obtain ⟨t, ht, hts⟩ := List.mem_map.mp hr
  have htz : t ∈ y.zip s := List.mem_of_mem_filter ht
  rw [← hts]
  exact (List.of_mem_zip htz).2

/-- Pairing a score against a list of identical scores sums to half the list
length. -/
theorem sum_pairScore_const (c : Rat) (ns : List Rat)
    (hc : ∀ b ∈ ns, b = c) :
    (ns.map fun b => pairScore c b).sum = (ns.length : Rat) / 2 := by
  induction ns with
  | nil => simp
  | cons b t ih =>
    have hb : b = c := hc b (List.mem_cons_self b t)
    have ht : ∀ x ∈ t, x = c := fun x hx => hc x (List.mem_cons_of_mem b hx)
    have hhead : pairScore c b = 1 / 2 := by
      rw [hb, pairScore]
      simp
    rw [List.map_cons, List.sum_cons, ih ht, hhead, List.length_cons]
    push_cast
    ring

/-- The rank-statistic numerator over constant score lists is half the number
of pairs. -/
theorem aucNum_const (c : Rat) (ps ns : List Rat)
    (hps : ∀ a ∈ ps, a = c) (hns : ∀ b ∈ ns, b = c) :
    aucNum ps ns = (ps.length : Rat) * (ns.length : Rat) / 2 := by
  induction ps with
  | nil => simp [aucNum]
  | cons a t ih =>
    have ha : a = c := hps a (List.mem_cons_self a t)
    have ht : ∀ x ∈ t, x = c := fun x hx => hps x (List.mem_cons_of_mem a hx)
    have ihv := ih ht
    rw [aucNum] at ihv ⊢
    simp only [List.map_cons, List.sum_cons, ihv, ha,
      sum_pairScore_const c ns hns, List.length_cons]
    push_cast
    ring

/-- C9: for a two-class label vector, constant predicted scores (probabilities
uncorrelated with ground truth) yield an AUC-ROC of exactly 1/2. -/
theorem auc_constant_half (y : List Nat) (s : List Rat) (c : Rat)
    (hlen : y.length = s.length) (h1 : 1 ∈ y) (h0 : 0 ∈ y)
    (hc : ∀ r ∈ s, r = c) :
    aucROC y s = some (1 / 2) := by
  have hps : posScores y s ≠ [] :=
    classScores_ne_nil y s 1 h1 (le_of_eq hlen)
  have hns : negScores y s ≠ [] :=
    classScores_ne_nil y s 0 h0 (le_of_eq hlen)
  have hpsc : ∀ a ∈ posScores y s, a = c :=
    fun a ha => hc a (classScores_subset y s 1 a ha)
  have hnsc : ∀ b ∈ negScores y s, b = c :=
    fun b hb => hc b (classScores_subset y s 0 b hb)
  have hP : (0 : Rat) < ((posScores y s).length : Rat) := by
    have := List.length_pos.mpr hps
    exact_mod_cast this
  have hN : (0 : Rat) < ((negScores y s).length : Rat) := by
    have := List.length_pos.mpr hns
    exact_mod_cast this
  have e1 : (posScores y s).isEmpty = false := by
    simp [List.isEmpty_iff, hps]
  have e2 : (negScores y s).isEmpty = false := by
    simp [List.isEmpty_iff, hns]
  have hPne : ((posScores y s).length : Rat) ≠ 0 := ne_of_gt hP
  have hNne : ((negScores y s).length : Rat) ≠ 0 := ne_of_gt hN
  simp only [aucROC, e1, e2, Bool.or_self, Bool.false_eq_true, if_false]
  rw [aucNum_const c _ _ hpsc hnsc]
  congr 1
  field_simp
  ring

/-- C9 witness: the constant-score AUC theorem at a concrete input. -/
theorem auc_constant_half_witness :
    aucROC [1, 0] [1/3, 1/3] = some (1 / 2) :=
  auc_constant_half [1, 0] [1/3, 1/3] (1/3) (by decide) (by decide) (by decide)
    (by intro r hr; simpa using hr)

/-! ## Tuner: exhaustive grid search with cross-validation -/

/-- Modelled from the spec: the hyperparameter grid is the Cartesian product
of per-parameter value lists, enumerated with the first dimension varying
slowest (grid enumeration order). -/
def paramGrid {α : Type} : List (List α) → List (List α)
  | [] => [[]]
  | vs :: rest => vs.flatMap fun v => (paramGrid rest).map fun tail => v :: tail

/-- Modelled from the spec: the average cross-validated score of one
configuration is the mean of its per-fold scores. -/
def cvScore {α : Type} (folds : α → List Rat) (c : α) : Rat :=
  (folds c).sum / ((folds c).length : Rat)

/-- Fold of the grid search: the accumulator holds the best scored
configuration seen so far; a configuration whose scoring fails (`none`,
a fit that throws) is skipped; a strictly better score replaces the
incumbent, so ties keep the earlier configuration. -/
def gridSearchAux {α : Type} (score : α → Option Rat) :
    List α → Option (α × Rat) → Option (α × Rat)
  | [], acc => acc
  | c :: cs, acc =>
    match score c with
    | none => gridSearchAux score cs acc
    | some s =>
      match acc with
      | none => gridSearchAux score cs (some (c, s))
      | some (b, bs) =>
        gridSearchAux score cs (if bs < s then some (c, s) else some (b, bs))

/-- Modelled from the spec: the Tuner exhaustively scores every configuration
of the grid and returns the configuration with the best average
cross-validated score together with that score; first-seen configuration
wins ties, and configurations that fail to fit are excluded rather than
aborting the search. -/
def gridSearch {α : Type} (score : α → Option Rat) (grid : List α) :
    Option (α × Rat) :=
  gridSearchAux score grid none

/-- Modelled from the spec: the Tuner over a grid with total (never-failing)
cross-validated scoring. -/
def tuner {α : Type} (folds : α → List Rat) (grid : List α) :
    Option (α × Rat) :=
  gridSearch (fun c => some (cvScore folds c)) grid

/-- C6: for a grid containing exactly one configuration, the Tuner returns
that configuration, and the best score it reports is that configuration's
average cross-validated score, unchanged. -/
theorem tuner_singleton_grid {α : Type} (folds : α → List Rat) (c : α) :
    tuner folds [c] = some (c, cvScore folds c) := by
  simp [tuner, gridSearch, gridSearchAux]

/-- An incumbent at least as good as every remaining configuration survives
the rest of the search. -/
theorem gridSearchAux_keep {α : Type} (f : α → Rat) :
    ∀ (l : List α) (b : α) (bs : Rat), (∀ x ∈ l, f x ≤ bs) →
      gridSearchAux (fun c => some (f c)) l (some (b, bs)) = some (b, bs) := by
  intro l
  induction l with
  | nil => intro b bs _; rfl
  | cons a t ih =>
    intro b bs hle
    have ha : f a ≤ bs := hle a (List.mem_cons_self a t)
    have ht : ∀ x ∈ t, f x ≤ bs := fun x hx => hle x (List.mem_cons_of_mem a hx)
    rw [gridSearchAux]
    simp only [if_neg (not_lt.mpr ha)]
    exact ih b bs ht

/-- If position `i` of the remaining configurations is the first maximum and
beats the incumbent, the search returns position `i`. -/
theorem gridSearchAux_first_max {α : Type} (f : α → Rat) :
    ∀ (l : List α) (i : Nat) (hi : i < l.length) (b : α) (bs : Rat),
      (∀ k (hk : k < l.length), f (l.get ⟨k, hk⟩) ≤ f (l.get ⟨i, hi⟩)) →
      (∀ k (hk : k < i), f (l.get ⟨k, Nat.lt_trans hk hi⟩) < f (l.get ⟨i, hi⟩)) →
      bs < f (l.get ⟨i, hi⟩) →
      gridSearchAux (fun c => some (f c)) l (some (b, bs)) =
        some (l.get ⟨i, hi⟩, f (l.get ⟨i, hi⟩)) := by
  intro l
  induction l with
  | nil => intro i hi; simp at hi
  | cons a t ih =>
    intro i hi b bs hmax hfirst hbs
    cases i with
    | zero =>
      simp only [List.get] at hmax hbs ⊢
      rw [gridSearchAux]
      simp only [if_pos hbs]
      refine gridSearchAux_keep f t a (f a) ?_
      intro x hx
      obtain ⟨⟨k, hk⟩, hkx⟩ := List.mem_iff_get.mp hx
      subst hkx
      have := hmax (k + 1) (by simpa using Nat.succ_lt_succ hk)
      simpa [List.get] using this
    | succ j =>
      have hj : j < t.length := Nat.lt_of_succ_lt_succ hi
      have hfa : f a < f (t.get ⟨j, hj⟩) := by
        have := hfirst 0 (Nat.succ_pos j)
        simpa [List.get] using this
      have htmax : ∀ k (hk : k < t.length),
          f (t.get ⟨k, hk⟩) ≤ f (t.get ⟨j, hj⟩) := by
        intro k hk
        have := hmax (k + 1) (Nat.succ_lt_succ hk)
        simpa [List.get] using this
      have htfirst : ∀ k (hk : k < j),
          f (t.get ⟨k, Nat.lt_trans hk hj⟩) < f (t.get ⟨j, hj⟩) := by
        intro k hk
        have := hfirst (k + 1) (Nat.succ_lt_succ hk)
        simpa [List.get] using this
      rw [gridSearchAux]
      simp only [List.get] at hbs ⊢
      by_cases hba : bs < f a
      · rw [if_pos hba]
        exact ih j hj a (f a) htmax htfirst hfa
      · rw [if_neg hba]
        exact ih j hj b bs htmax htfirst hbs

/-- The search over any grid returns the configuration at the first position
attaining the maximum score. -/
theorem gridSearch_first_max {α : Type} (f : α → Rat) :
    ∀ (g : List α) (i : Nat) (hi : i < g.length),
      (∀ k (hk : k < g.length), f (g.get ⟨k, hk⟩) ≤ f (g.get ⟨i, hi⟩)) →
      (∀ k (hk : k < i), f (g.get ⟨k, Nat.lt_trans hk hi⟩) < f (g.get ⟨i, hi⟩)) →
      gridSearch (fun c => some (f c)) g =
        some (g.get ⟨i, hi⟩, f (g.get ⟨i, hi⟩)) := by
  intro g
  cases g with
  | nil => intro i hi; simp at hi
  | cons a t =>
    intro i hi hmax hfirst
    cases i with
    | zero =>
      rw [gridSearch, gridSearchAux]
      simp only [List.get] at hmax ⊢
      refine gridSearchAux_keep f t a (f a) ?_
      intro x hx
      obtain ⟨⟨k, hk⟩, hkx⟩ := List.mem_iff_get.mp hx
      subst hkx
      have := hmax (k + 1) (by simpa using Nat.succ_lt_succ hk)
      simpa [List.get] using this
    | succ j =>
      have hj : j < t.length := Nat.lt_of_succ_lt_succ hi
      have hfa : f a < f (t.get ⟨j, hj⟩) := by
        have := hfirst 0 (Nat.succ_pos j)
        simpa [List.get] using this
      have htmax : ∀ k (hk : k < t.length),
          f (t.get ⟨k, hk⟩) ≤ f (t.get ⟨j, hj⟩) := by
        intro k hk
        have := hmax (k + 1) (Nat.succ_lt_succ hk)
        simpa [List.get] using this
      have htfirst : ∀ k (hk : k < j),
          f (t.get ⟨k, Nat.lt_trans hk hj⟩) < f (t.get ⟨j, hj⟩) := by
        intro k hk
        have := hfirst (k + 1) (Nat.succ_lt_succ hk)
        simpa [List.get] using this
      rw [gridSearch, gridSearchAux]
      simp only [List.get]
      exact gridSearchAux_first_max f t j hj a (f a) htmax htfirst hfa

/-- C4: when the first maximum of the scores over the Cartesian-product grid
enumeration sits at position `i` (so in particular when several
configurations tie for the best score, `i` being the first of them), the
Tuner returns the configuration at position `i`: first-seen wins, grid
enumeration order is the tie-break order. -/
theorem tuner_first_seen_tie_break {α : Type} (dims : List (List α))
    (f : List α → Rat) (i : Nat) (hi : i < (paramGrid dims).length)
    (hmax : ∀ k (hk : k < (paramGrid dims).length),
      f ((paramGrid dims).get ⟨k, hk⟩) ≤ f ((paramGrid dims).get ⟨i, hi⟩))
    (hfirst : ∀ k (hk : k < i),
      f ((paramGrid dims).get ⟨k, Nat.lt_trans hk hi⟩) <
        f ((paramGrid dims).get ⟨i, hi⟩)) :
    gridSearch (fun c => some (f c)) (paramGrid dims) =
      some ((paramGrid dims).get ⟨i, hi⟩, f ((paramGrid dims).get ⟨i, hi⟩)) :=
  gridSearch_first_max f (paramGrid dims) i hi hmax hfirst

/-- C4 witness: a two-configuration grid whose scores tie; the search returns
the first configuration of the Cartesian enumeration. -/
theorem tuner_first_seen_tie_break_witness :
    gridSearch (fun c => some ((fun _ : List Nat => (0 : Rat)) c))
        (paramGrid [[0, 1]]) =
      some ((paramGrid [[0, 1]]).get ⟨0, by decide⟩,
        (fun _ : List Nat => (0 : Rat)) ((paramGrid [[0, 1]]).get ⟨0, by decide⟩)) :=
  tuner_first_seen_tie_break [[0, 1]] (fun _ => (0 : Rat)) 0 (by decide)
    (fun k hk => le_refl 0) (fun k hk => absurd hk (Nat.not_lt_zero k))

/-- The search yields a result whenever the incumbent is set or some
remaining configuration scores successfully. -/
theorem gridSearchAux_isSome {α : Type} (score : α → Option Rat) :
    ∀ (l : List α) (acc : Option (α × Rat)),
      (acc.isSome = true ∨ ∃ c ∈ l, (score c).isSome = true) →
      (gridSearchAux score l acc).isSome = true := by
  intro l
  induction l with
  | nil =>
    intro acc h
    rcases h with h | ⟨c, hc, _⟩
    · exact h
    · simp at hc
  | cons a t ih =>
    intro acc h
    rw [gridSearchAux]
    rcases hs : score a with _ | s
    · refine ih acc ?_
      rcases h with h | ⟨c, hc, hcs⟩
      · exact Or.inl h
      · rcases List.mem_cons.mp hc with rfl | hct
        · rw [hs] at hcs; simp at hcs
        · exact Or.inr ⟨c, hct, hcs⟩
    · cases acc with
      | none => exact ih _ (Or.inl rfl)
      | some p =>
        obtain ⟨b, bs⟩ := p
        exact ih _ (Or.inl (by by_cases hlt : bs < s <;> simp [hlt]))

/-- Every result of the search is either the starting incumbent or a
configuration of the grid that scored successfully. -/
theorem gridSearchAux_sound {α : Type} (score : α → Option Rat) :
    ∀ (l : List α) (acc : Option (α × Rat)) (c : α) (s : Rat),
      gridSearchAux score l acc = some (c, s) →
      acc = some (c, s) ∨ (c ∈ l ∧ score c = some s) := by
  intro l
  induction l with
  | nil => intro acc c s h; exact Or.inl h
  | cons a t ih =>
    intro acc c s h
    rw [gridSearchAux] at h
    rcases hs : score a with _ | sa
    · simp only [hs] at h
      rcases ih acc c s h with h2 | ⟨h2, h3⟩
      · exact Or.inl h2
      · exact Or.inr ⟨List.mem_cons_of_mem a h2, h3⟩
    · simp only [hs] at h
      cases acc with
      | none =>
        rcases ih _ c s h with h2 | ⟨h2, h3⟩
        · obtain ⟨rfl, rfl⟩ : a = c ∧ sa = s := by
            simpa using h2
          exact Or.inr ⟨List.mem_cons_self a t, hs⟩
        · exact Or.inr ⟨List.mem_cons_of_mem a h2, h3⟩
      | some p =>
        obtain ⟨b, bs⟩ := p
        simp only at h
        by_cases hlt : bs < sa
        · rw [if_pos hlt] at h
          rcases ih _ c s h with h2 | ⟨h2, h3⟩
          · obtain ⟨rfl, rfl⟩ : a = c ∧ sa = s := by
              simpa using h2
            exact Or.inr ⟨List.mem_cons_self a t, hs⟩
          · exact Or.inr ⟨List.mem_cons_of_mem a h2, h3⟩
        · rw [if_neg hlt] at h
          rcases ih _ c s h with h2 | ⟨h2, h3⟩
          · exact Or.inl h2
          · exact Or.inr ⟨List.mem_cons_of_mem a h2, h3⟩

/-- The score of the search result dominates the incumbent's score and every
successful score of the grid. -/
theorem gridSearchAux_optimal {α : Type} (score : α → Option Rat) :
    ∀ (l : List α) (acc : Option (α × Rat)) (c : α) (s : Rat),
      gridSearchAux score l acc = some (c, s) →
      (∀ b bs, acc = some (b, bs) → bs ≤ s) ∧
      (∀ c3 ∈ l, ∀ s3, score c3 = some s3 → s3 ≤ s) := by
  intro l
  induction l with
  | nil =>
    intro acc c s h
    constructor
    · intro b bs hacc
      rw [gridSearchAux] at h
      rw [hacc] at h
      obtain ⟨rfl, rfl⟩ : b = c ∧ bs = s := by simpa using h
      exact le_refl _
    · intro c3 hc3; simp at hc3
  | cons a t ih =>
    intro acc c s h
    rw [gridSearchAux] at h
    rcases hs : score a with _ | sa
    · simp only [hs] at h
      obtain ⟨hacc, hrest⟩ := ih acc c s h
      refine ⟨hacc, ?_⟩
      intro c3 hc3 s3 hc3s
      rcases List.mem_cons.mp hc3 with rfl | hct
      · rw [hs] at hc3s; simp at hc3s
      · exact hrest c3 hct s3 hc3s
    · simp only [hs] at h
      cases acc with
      | none =>
        obtain ⟨hacc, hrest⟩ := ih _ c s h
        have hsa : sa ≤ s := hacc a sa rfl
        constructor
        · intro b bs hbs; simp at hbs
        · intro c3 hc3 s3 hc3s
          rcases List.mem_cons.mp hc3 with rfl | hct
          · rw [hs] at hc3s
            obtain rfl : sa = s3 := by simpa using hc3s
            exact hsa
          · exact hrest c3 hct s3 hc3s
      | some p =>
        obtain ⟨b, bs⟩ := p
        simp only at h
        by_cases hlt : bs < sa
        · rw [if_pos hlt] at h
          obtain ⟨hacc, hrest⟩ := ih _ c s h
          have hsa : sa ≤ s := hacc a sa rfl
          constructor
          · intro b2 bs2 hbs2
            obtain ⟨rfl, rfl⟩ : b2 = b ∧ bs2 = bs := by
              simpa using hbs2.symm
            exact le_trans (le_of_lt hlt) hsa
          · intro c3 hc3 s3 hc3s
            rcases List.mem_cons.mp hc3 with rfl | hct
            · rw [hs] at hc3s
              obtain rfl : sa = s3 := by simpa using hc3s
              exact hsa
            · exact hrest c3 hct s3 hc3s
        · rw [if_neg hlt] at h
          obtain ⟨hacc, hrest⟩ := ih _ c s h
          have hbs : bs ≤ s := hacc b bs rfl
          constructor
          · intro b2 bs2 hbs2
            obtain ⟨rfl, rfl⟩ : b2 = b ∧ bs2 = bs := by
              simpa using hbs2.symm
            exact hbs
          · intro c3 hc3 s3 hc3s
            rcases List.mem_cons.mp hc3 with rfl | hct
            · rw [hs] at hc3s
              obtain rfl : sa = s3 := by simpa using hc3s
              exact le_trans (le_of_not_lt hlt) hbs
            · exact hrest c3 hct s3 hc3s

/-- C5: when at least one configuration of the grid fits successfully, the
search completes with a successful configuration whose score dominates every
successfully scored configuration; configurations whose fit throws (score
`none`) are excluded from the comparison rather than aborting the search. -/
theorem tuner_skips_failing_fits {α : Type} (grid : List α)
    (score : α → Option Rat) (hok : ∃ c ∈ grid, (score c).isSome = true) :
    ∃ c s, gridSearch score grid = some (c, s) ∧ c ∈ grid ∧
      score c = some s ∧
      ∀ c2 ∈ grid, ∀ s2, score c2 = some s2 → s2 ≤ s := by
  have hsome : (gridSearch score grid).isSome = true :=
    gridSearchAux_isSome score grid none (Or.inr hok)
  obtain ⟨⟨c, s⟩, hcs⟩ := Option.isSome_iff_exists.mp hsome
  obtain ⟨hmem, hsc⟩ : c ∈ grid ∧ score c = some s := by
    rcases gridSearchAux_sound score grid none c s hcs with h | h
    · simp at h
    · exact h
  exact ⟨c, s, hcs, hmem, hsc, (gridSearchAux_optimal score grid none c s hcs).2⟩

/-- C5 witness: a grid whose first configuration throws during fit; the
search still returns the best among the surviving configurations. -/
theorem tuner_skips_failing_fits_witness :
    ∃ c s, gridSearch (fun n : Nat => if n == 0 then none else some 1) [0, 1] =
        some (c, s) ∧ c ∈ ([0, 1] : List Nat) ∧
      (fun n : Nat => if n == 0 then none else some (1 : Rat)) c = some s ∧
      ∀ c2 ∈ ([0, 1] : List Nat), ∀ s2,
        (fun n : Nat => if n == 0 then none else some (1 : Rat)) c2 = some s2 →
          s2 ≤ s :=
  tuner_skips_failing_fits [0, 1] (fun n => if n == 0 then none else some 1)
    ⟨1, by decide, by decide⟩

/-! ## Model Trainer: fitting, warnings, prediction -/

/-- Rational absolute value, written out so that all trainer computations
evaluate by kernel reduction. -/
def ratAbs (q : Rat) : Rat := if q < 0 then -q else q

/-- Dot product of a weight vector and a feature vector. -/
def dot : List Rat → List Rat → Rat
  | a :: as, b :: bs => a * b + dot as bs
  | _, _ => 0

/-- Rational squashing link mapping a decision value to a probability:
strictly increasing, 0 maps to 1/2, range inside [0,1]. -/
def squash (z : Rat) : Rat := 1 / 2 + z / (2 * (1 + ratAbs z))

/-- Class-1 (bad credit) membership probability of a fitted linear model at a
sample. -/
def probaOne (w x : List Rat) : Rat := squash (dot w x)

/-- Class-0 (good credit) membership probability; the two class
probabilities sum to one. -/
def probaZero (w x : List Rat) : Rat := 1 - probaOne w x

/-- Modelled from the spec: the hard class label of a fitted classifier is
obtained by thresholding the class-1 probability at 0.5. -/
def predictW (w x : List Rat) : Nat :=
  if probaOne w x < 1 / 2 then 0 else 1

/-- One optimizer update on a single training sample: a misclassified sample
moves the weights toward (label 1) or away from (label 0) its features. -/
def updateOne (w : List Rat) (x : List Rat) (y : Nat) : List Rat :=
  if predictW w x = y then w
  else if y = 1 then List.zipWith (· + ·) w x
  else List.zipWith (· - ·) w x

/-- One full optimizer pass over the training data. -/
def fitPass (data : List (List Rat × Nat)) (w : List Rat) : List Rat :=
  data.foldl (fun w2 t => updateOne w2 t.1 t.2) w

/-- Iterate optimizer passes up to the iteration budget; report convergence
when a pass reaches a fixed point within the budget. -/
def fitIter (data : List (List Rat × Nat)) : Nat → List Rat → List Rat × Bool
  | 0, w => (w, false)
  | n + 1, w =>
    let w2 := fitPass data w
    if w2 = w then (w, true) else fitIter data n w2

/-- Result of fitting: learned weights, a convergence flag, and the warnings
emitted during the fit. -/
structure FitResult where
  weights : List Rat
  converged : Bool
  warnings : List String

/-- Modelled from the spec: `LogisticRegression.fit` is absent from the
sources (scikit-learn library code); the spec requires an iterative
optimizer with an iteration cap whose non-convergence is surfaced as a
warning, never as an exception, the (possibly suboptimal) fitted model still
being returned.  The return type is `FitResult`, not an error type: fitting
always yields a usable model. -/
def trainModel (maxIter : Nat) (data : List (List Rat × Nat)) : FitResult :=
  let dim := (data.head?.elim 0 fun t => t.1.length)
  let r := fitIter data maxIter (List.replicate dim 0)
  { weights := r.1
    converged := r.2
    warnings := if r.2 then [] else ["ConvergenceWarning"] }

/-- The squashing link always produces a value in [0,1]. -/
theorem squash_mem_unit (z : Rat) : 0 ≤ squash z ∧ squash z ≤ 1 := by
  have habs : 0 ≤ ratAbs z ∧ z ≤ ratAbs z ∧ -ratAbs z ≤ z := by
    rw [ratAbs]
    by_cases hz : z < 0
    · rw [if_pos hz]
      exact ⟨by linarith, by linarith, by linarith⟩
    · rw [if_neg hz]
      have hz2 := le_of_not_lt hz
      exact ⟨hz2, le_refl z, by linarith⟩
  obtain ⟨h0, hup, hlo⟩ := habs
  have hd : (0 : Rat) < 2 * (1 + ratAbs z) := by linarith
  constructor
  · rw [squash]
    have : -(1 : Rat) / 2 ≤ z / (2 * (1 + ratAbs z)) := by
      rw [div_le_div_iff (by norm_num) hd]
      linarith
    linarith
  · rw [squash]
    have : z / (2 * (1 + ratAbs z)) ≤ 1 / 2 := by
      rw [div_le_div_iff hd (by norm_num)]
      linarith
    linarith

/-- C7: fitting never raises: for every iteration budget and training input,
the trainer returns a result, and whenever the optimizer failed to converge
the result carries exactly the convergence warning while the fitted model
still answers label queries (a 0/1 label) and probability queries (a pair of
class probabilities in [0,1] summing to one) at every sample. -/
theorem train_nonconvergence_warning_usable (maxIter : Nat)
    (data : List (List Rat × Nat)) (x : List Rat)
    (hnc : (trainModel maxIter data).converged = false) :
    (trainModel maxIter data).warnings = ["ConvergenceWarning"] ∧
      (predictW (trainModel maxIter data).weights x = 0 ∨
        predictW (trainModel maxIter data).weights x = 1) ∧
      0 ≤ probaOne (trainModel maxIter data).weights x ∧
      probaOne (trainModel maxIter data).weights x ≤ 1 ∧
      probaZero (trainModel maxIter data).weights x +
        probaOne (trainModel maxIter data).weights x = 1 := by
  refine ⟨?_, ?_, ?_, ?_, ?_⟩
  · rw [trainModel] at hnc ⊢
    simp only at hnc ⊢
    rw [hnc]
    simp
  · rw [predictW]
    by_cases hlt : probaOne (trainModel maxIter data).weights x < 1 / 2
    · rw [if_pos hlt]
      exact Or.inl rfl
    · rw [if_neg hlt]
      exact Or.inr rfl
  · exact (squash_mem_unit _).1
  · exact (squash_mem_unit _).2
  · rw [probaZero]
    ring

/-- C7 witness: one optimizer pass on a single contradictory sample does not
reach a fixed point, so the budget of one iteration ends without
convergence; the theorem applies. -/
theorem train_nonconvergence_warning_usable_witness :
    (trainModel 1 [([1], 0)]).warnings = ["ConvergenceWarning"] ∧
      (predictW (trainModel 1 [([1], 0)]).weights [1] = 0 ∨
        predictW (trainModel 1 [([1], 0)]).weights [1] = 1) ∧
      0 ≤ probaOne (trainModel 1 [([1], 0)]).weights [1] ∧
      probaOne (trainModel 1 [([1], 0)]).weights [1] ≤ 1 ∧
      probaZero (trainModel 1 [([1], 0)]).weights [1] +
        probaOne (trainModel 1 [([1], 0)]).weights [1] = 1 :=
  train_nonconvergence_warning_usable 1 [([1], 0)] [1]
    (by simp [trainModel, fitIter, fitPass, updateOne, predictW, probaOne,
      squash, ratAbs, dot, List.zipWith])

/-- C10: the hard label of a fitted classifier agrees with its class
probabilities: the predicted label is 1 exactly when the class-1 probability
is at least the class-0 probability, which is the 0.5 threshold. -/
theorem predict_agrees_with_proba (w x : List Rat) :
    predictW w x = 1 ↔ probaZero w x ≤ probaOne w x := by
  rw [predictW, probaZero]
  by_cases hlt : probaOne w x < 1 / 2
  · simp only [if_pos hlt]
    constructor
    · intro h; exact absurd h (by norm_num)
    · intro h; linarith
  · simp only [if_neg hlt]
    have := le_of_not_lt hlt
    constructor
    · intro _; linarith
    · intro _; trivial

/-! ## Pipeline: seeded training plus evaluation -/

/-- Linear congruential step generating the deterministic pseudo-random
stream seeded by the fixed random seed. -/
def lcgNext (s : Nat) : Nat := (1103515245 * s + 12345) % 2147483648

/-- Fuel-bounded seeded selection shuffle: repeatedly extract the position
given by the current pseudo-random value. -/
def shuffleGo {α : Type} : Nat → Nat → List α → List α
  | 0, _, l => l
  | _ + 1, _, [] => []
  | f + 1, s, a :: t =>
    let i := s % (a :: t).length
    (a :: t).get ⟨i, Nat.mod_lt s (Nat.succ_pos t.length)⟩ ::
      shuffleGo f (lcgNext s) ((a :: t).eraseIdx i)

/-- Deterministic reordering of the training data driven by the seed. -/
def seededShuffle {α : Type} (seed : Nat) (l : List α) : List α :=
  shuffleGo l.length seed l

/-- Evaluation result: scalar metrics, 2x2 confusion matrix and the
per-class precision/recall table, purely derived from predictions and
ground truth. -/
structure Metrics where
  acc : Rat
  auc : Option Rat
  confusion : (Nat × Nat) × (Nat × Nat)
  report : List (Rat × Rat)

/-- Precision of one class: its diagonal confusion count over the number of
samples predicted as that class. -/
def classPrecision (y p : List Nat) (c : Nat) : Rat :=
  (confusionCount y p c c : Rat) / (p.countP (· == c) : Rat)

/-- Recall of one class: its diagonal confusion count over the number of
samples truly of that class. -/
def classRecall (y p : List Nat) (c : Nat) : Rat :=
  (confusionCount y p c c : Rat) / (y.countP (· == c) : Rat)

/-- Modelled from the spec: the Evaluator computes accuracy, AUC-ROC, the
confusion matrix and the per-class report deterministically from true
labels, predicted labels and predicted scores. -/
def evalMetrics (y p : List Nat) (s : List Rat) : Metrics :=
  { acc := accuracy y p
    auc := aucROC y s
    confusion := ((confusionCount y p 0 0, confusionCount y p 0 1),
      (confusionCount y p 1 0, confusionCount y p 1 1))
    report := [(classPrecision y p 0, classRecall y p 0),
      (classPrecision y p 1, classRecall y p 1)] }

/-- Modelled from the spec: one run of Model Trainer plus Evaluator.  The
seed drives the only pseudo-random choice the spec admits (the order in
which the optimizer visits training samples); fitting and every metric are
pure functions of the data and the seed. -/
def runPipeline (seed maxIter : Nat) (train test : List (List Rat × Nat)) :
    Metrics :=
  let r := trainModel maxIter (seededShuffle seed train)
  evalMetrics (test.map Prod.snd)
    (test.map fun t => predictW r.weights t.1)
    (test.map fun t => probaOne r.weights t.1)

/-- C3: two independent runs of the Model Trainer followed by the Evaluator
on identical data with the same fixed seed produce identical metric values
(accuracy, AUC, confusion matrix, per-class report): the composed pipeline
is a deterministic function of its inputs and the seed. -/
theorem pipeline_deterministic (s1 s2 mi1 mi2 : Nat)
    (tr1 tr2 te1 te2 : List (List Rat × Nat))
    (hs : s1 = s2) (hmi : mi1 = mi2) (htr : tr1 = tr2) (hte : te1 = te2) :
    runPipeline s1 mi1 tr1 te1 = runPipeline s2 mi2 tr2 te2 := by
  subst hs; subst hmi; subst htr; subst hte
  rfl

/-- C3 witness: the determinism theorem at a concrete seed and dataset. -/
theorem pipeline_deterministic_witness :
    runPipeline 42 5 [([1], 1), ([0], 0)] [([1], 1)] =
      runPipeline 42 5 [([1], 1), ([0], 0)] [([1], 1)] :=
  pipeline_deterministic 42 42 5 5 [([1], 1), ([0], 0)] [([1], 1), ([0], 0)]
    [([1], 1)] [([1], 1)] rfl rfl rfl rfl

end PD
